import Mathlib

/-!
Shallow embedding of the PAC proxy demo (`demo.js`).

Hostnames are embedded as `String` / `List Char`; the JavaScript `Set` of
domains is embedded as a `List String` in insertion order (a JS `Set`
iterates in insertion order and holds no duplicates).  The embedded PAC
decision function (`FindProxyForURL` emitted by `generatePACCode`) walks
dot positions from the right using `lastIndexOf`/`substring`; it is
embedded positionally, with an explicit fuel argument bounding the
`while(1)` loop (fuel `host.length + 1` is proved sufficient below).
-/

namespace PacDemo

/-- Whitespace predicate used by the embedding of JavaScript `trim()`. -/
def isWS (c : Char) : Bool :=
  c = ' ' || c = '\t' || c = '\n' || c = '\r'

/-- Embedding of JavaScript `String.prototype.trim` for ASCII inputs:
drop leading and trailing whitespace. -/
def jsTrim (s : List Char) : List Char :=
  ((s.dropWhile isWS).reverse.dropWhile isWS).reverse

/-- Embedding of JavaScript `String.prototype.toLowerCase` for ASCII inputs. -/
def jsToLower (s : List Char) : List Char :=
  s.map Char.toLower

/-- Embedding of JavaScript `hostname.split('.')` on the character list:
splitting on `'.'` keeps empty fragments, and the split of the empty
string is `[""]`. -/
def splitOnDot : List Char → List (List Char)
  | [] => [[]]
  | c :: cs =>
    if c = '.' then [] :: splitOnDot cs
    else
      match splitOnDot cs with
      | [] => [[c]]
      | p :: ps => (c :: p) :: ps

/-- Embedding of JavaScript `parts.join('.')`. -/
def joinDots : List (List Char) → List Char
  | [] => []
  | [p] => p
  | p :: ps => p ++ '.' :: joinDots ps

/-- The tails of `l` that start right after some `'.'` occurrence, in
left-to-right order of the dots. -/
def tailsAfterDots : List Char → List (List Char)
  | [] => []
  | c :: cs => if c = '.' then cs :: tailsAfterDots cs else tailsAfterDots cs

/-- All candidate suffixes a PAC-style scan can ever test on `l`: the whole
hostname together with every tail that follows a dot. -/
def dotSuffixes (l : List Char) : List (List Char) :=
  l :: tailsAfterDots l

/-- Embedding of JavaScript `host.lastIndexOf('.', fromIdx)`: the largest
index `≤ fromIdx` holding a dot, or `-1` when there is none.  Indices at
or beyond the length never hold a dot. -/
def lastDot (host : List Char) : Nat → Int
  | 0 => if host.getD 0 ' ' = '.' then (0 : Int) else -1
  | Nat.succ f =>
    if host.getD (f + 1) ' ' = '.' then ((f : Int) + 1) else lastDot host f

/-- The initial dot cursor of the embedded PAC function:
`host.lastIndexOf('.')`, i.e. a search over the whole string. -/
def initPos (host : List Char) : Int :=
  lastDot host (host.length - 1)

/-- Embedding of the `while(1)` loop inside the generated `FindProxyForURL`:

    suffix = host.substring(pos + 1);
    if (hasOwnProperty.call(domains, suffix)) return proxy;
    if (pos <= 0) break;
    pos = host.lastIndexOf('.', pos - 1);

`true` stands for `return proxy`, `false` for falling through to
`return direct`.  The explicit fuel only bounds the loop; fuel
`host.length + 1` is proved sufficient (`pacScanO_eq_some`). -/
def pacScan (rules : List String) (host : List Char) : Nat → Int → Bool
  | 0, _ => false
  | Nat.succ n, pos =>
    let suffix := String.mk (host.drop (pos + 1).toNat)
    if suffix ∈ rules then true
    else if pos ≤ 0 then false
    else pacScan rules host n (lastDot host (pos - 1).toNat)

/-- Instrumented variant of `pacScan` that reports fuel exhaustion as
`none`; used to state that the loop terminates within `host.length + 1`
iterations. -/
def pacScanO (rules : List String) (host : List Char) : Nat → Int → Option Bool
  | 0, _ => none
  | Nat.succ n, pos =>
    let suffix := String.mk (host.drop (pos + 1).toNat)
    if suffix ∈ rules then some true
    else if pos ≤ 0 then some false
    else pacScanO rules host n (lastDot host (pos - 1).toNat)

/-- One full run of the embedded PAC scan on a hostname. -/
def pacRun (rules : List String) (host : List Char) : Bool :=
  pacScan rules host (host.length + 1) (initPos host)

/-- The two PAC verdicts. -/
inductive Verdict where
  | PROXY : Verdict
  | DIRECT : Verdict
deriving DecidableEq, Repr

/-- Verdict of the embedded `FindProxyForURL` on a hostname. -/
def pacDecide (rules : List String) (host : String) : Verdict :=
  if pacRun rules host.data then Verdict.PROXY else Verdict.DIRECT

/-- Embedding of the generated `FindProxyForURL` itself, returning the
directive string built from the configured proxy server. -/
def findProxyForURL (proxyServer : String) (rules : List String)
    (host : String) : String :=
  let proxy := "PROXY " ++ proxyServer ++ ";"
  let direct := "DIRECT;"
  if pacRun rules host.data then proxy else direct

/-- Embedding of `checkDomainInPAC` (demo.js lines 173-183):

    const parts = hostname.split('.');
    for (let i = 0; i < parts.length - 1; i++) {
      const domain = parts.slice(i).join('.');
      if (this.domains.has(domain)) return true;
    }
    return false;
-/
def checkDomainInPAC (domains : List String) (hostname : String) : Bool :=
  let parts := splitOnDot hostname.data
  (List.range (parts.length - 1)).any
    (fun i => decide (String.mk (joinDots (parts.drop i)) ∈ domains))

/-- Recursive rendering of the candidate list tested by
`checkDomainInPAC`: `parts.slice(i).join('.')` for `0 ≤ i < parts.length - 1`. -/
def checkCands : List (List Char) → List (List Char)
  | [] => []
  | [_] => []
  | p :: ps => joinDots (p :: ps) :: checkCands ps

/-- Modelled from the spec: the candidate suffixes of the specified scan,
starting from the rightmost single label and growing one label to the
left on each step (shortest suffix first). -/
def scanCandidates : List (List Char) → List (List Char)
  | [] => []
  | p :: ps => scanCandidates ps ++ [joinDots (p :: ps)]

/-- Modelled from the spec: return PROXY at the first candidate found in
the rule set, DIRECT when the scan is exhausted. -/
def firstMatch (rules : List String) : List (List Char) → Verdict
  | [] => Verdict.DIRECT
  | c :: cs =>
    if String.mk c ∈ rules then Verdict.PROXY else firstMatch rules cs

/-- Modelled from the spec: split the hostname on `'.'` and run the
left-growing first-match scan. -/
def specDecide (rules : List String) (host : String) : Verdict :=
  firstMatch rules (scanCandidates (splitOnDot host.data))

/-- Character class `[a-zA-Z0-9]` of the validation regexes. -/
def isAlnum (c : Char) : Bool :=
  c.isAlpha || c.isDigit

/-- Character class `[a-zA-Z0-9-]` of the validation regexes. -/
def isLabelChar (c : Char) : Bool :=
  isAlnum c || c = '-'

/-- Embedding of the first validation regex of `isValidDomain`,
`^[a-zA-Z0-9][a-zA-Z0-9-]{1,61}[a-zA-Z0-9]\.[a-zA-Z]{2,}$`: since neither
character class admits a dot, a match is exactly a two-fragment dot split
whose fragments satisfy the classes and length bounds. -/
def regex1Match (s : List Char) : Bool :=
  match splitOnDot s with
  | [a, b] =>
    decide (3 ≤ a.length) && decide (a.length ≤ 63) &&
    isAlnum (a.getD 0 ' ') && isAlnum (a.getD (a.length - 1) ' ') &&
    ((a.drop 1).dropLast.all isLabelChar) &&
    decide (2 ≤ b.length) && b.all Char.isAlpha
  | _ => false

/-- Embedding of the second validation regex of `isValidDomain`,
`^[a-zA-Z0-9-]+\.[a-zA-Z]{2,}$`. -/
def regex2Match (s : List Char) : Bool :=
  match splitOnDot s with
  | [a, b] =>
    decide (a ≠ []) && a.all isLabelChar &&
    decide (2 ≤ b.length) && b.all Char.isAlpha
  | _ => false

/-- Embedding of `isValidDomain` (demo.js lines 78-81). -/
def isValidDomain (domain : String) : Bool :=
  regex1Match domain.data || regex2Match domain.data

/-- Embedding of JavaScript `Set.prototype.add` on the insertion-order
list model: a no-op when the element is present, otherwise append. -/
def setAdd (domains : List String) (d : String) : List String :=
  if d ∈ domains then domains else domains ++ [d]

/-- Embedding of JavaScript `Set.prototype.delete`: the new state together
with the boolean the deletion returns (`true` iff the element was
present and removed). -/
def setDelete (domains : List String) (d : String) : List String × Bool :=
  (domains.filter (fun x => decide (x ≠ d)), decide (d ∈ domains))

/-- Embedding of `removeDomain` (demo.js lines 71-76): it performs
`this.domains.delete(domain)` and keeps only the new state. -/
def removeDomain (domains : List String) (d : String) : List String :=
  (setDelete domains d).1

/-- Embedding of `addDomain` (demo.js lines 56-69): trim and lowercase the
input, then add it only when it is non-empty and valid.  The boolean is
`true` for the success notification and `false` for the error
notification. -/
def addDomain (domains : List String) (input : String) : List String × Bool :=
  let domain := String.mk (jsToLower (jsTrim input.data))
  if domain ≠ "" ∧ isValidDomain domain = true then
    (setAdd domains domain, true)
  else
    (domains, false)

/-- Helper for `firstOccurrences`: keep the first occurrence of each
element, threading the set of elements already seen. -/
def firstOccAux (seen : List String) : List String → List String
  | [] => []
  | x :: xs =>
    if x ∈ seen then firstOccAux seen xs
    else x :: firstOccAux (x :: seen) xs

/-- The first-occurrence subsequence of a list: each element in the order
of its first appearance. -/
def firstOccurrences (l : List String) : List String :=
  firstOccAux [] l

/-- Embedding of `generatePACCode` (demo.js lines 83-118): the emitted PAC
text as a function of the proxy server string and the domain list in
insertion order (`Array.from(this.domains)` — no sorting). -/
def generatePACCode (proxyServer : String) (domains : List String) : String :=
  "function FindProxyForURL(url, host) \x7b\n" ++
  "    var proxy = \"PROXY " ++ proxyServer ++ ";\";\n" ++
  "    var direct = \"DIRECT;\";\n" ++
  "    \n" ++
  "    var domains = \x7b\n" ++
  String.intercalate (",\n")
    (domains.map (fun d => "        \"" ++ d ++ "\": 1")) ++
  "\n    \x7d;\n" ++
  "    \n" ++
  "    var hasOwnProperty = Object.hasOwnProperty;\n" ++
  "    \n" ++
  "    var suffix;\n" ++
  "    var pos = host.lastIndexOf(\x27.\x27);\n" ++
  "    while(1) \x7b\n" ++
  "        suffix = host.substring(pos + 1);\n" ++
  "        if (hasOwnProperty.call(domains, suffix)) \x7b\n" ++
  "            return proxy;\n" ++
  "        \x7d\n" ++
  "        if (pos <= 0) \x7b\n" ++
  "            break;\n" ++
  "        \x7d\n" ++
  "        pos = host.lastIndexOf(\x27.\x27, pos - 1);\n" ++
  "    \x7d\n" ++
  "    return direct;\n" ++
  "\x7d"

/-! ### Structure of `splitOnDot`, `joinDots` and the suffix candidates -/

lemma splitOnDot_ne_nil (l : List Char) : splitOnDot l ≠ [] := by
  cases l with
  | nil => simp [splitOnDot]
  | cons c cs =>
    by_cases h : c = '.'
    · simp [splitOnDot, h]
    · simp only [splitOnDot, if_neg h]
      cases hs : splitOnDot cs <;> simp

lemma splitOnDot_dot (cs : List Char) :
    splitOnDot ('.' :: cs) = [] :: splitOnDot cs := by
  simp [splitOnDot]

lemma splitOnDot_cons (c : Char) (cs p : List Char) (ps : List (List Char))
    (h : c ≠ '.') (hs : splitOnDot cs = p :: ps) :
    splitOnDot (c :: cs) = (c :: p) :: ps := by
  simp [splitOnDot, h, hs]

lemma joinDots_cons (p : List Char) (ps : List (List Char)) (h : ps ≠ []) :
    joinDots (p :: ps) = p ++ '.' :: joinDots ps := by
  cases ps with
  | nil => exact absurd rfl h
  | cons q qs => rfl

lemma joinDots_splitOnDot (l : List Char) : joinDots (splitOnDot l) = l := by
  induction l with
  | nil => rfl
  | cons c cs ih =>
    by_cases h : c = '.'
    · subst h
      rw [splitOnDot_dot, joinDots_cons _ _ (splitOnDot_ne_nil cs), ih]
      rfl
    · cases hs : splitOnDot cs with
      | nil => exact absurd hs (splitOnDot_ne_nil cs)
      | cons p ps =>
        rw [splitOnDot_cons c cs p ps h hs]
        rw [hs] at ih
        cases ps with
        | nil =>
          simp only [joinDots] at ih ⊢
          rw [ih]
        | cons q qs =>
          rw [joinDots_cons _ _ (by simp)] at ih
          rw [joinDots_cons _ _ (by simp), List.cons_append, ih]

lemma length_splitOnDot (l : List Char) :
    (splitOnDot l).length = l.count '.' + 1 := by
  induction l with
  | nil => simp [splitOnDot]
  | cons c cs ih =>
    by_cases h : c = '.'
    · subst h
      rw [splitOnDot_dot, List.length_cons, ih, List.count_cons]
      simp
    · cases hs : splitOnDot cs with
      | nil => exact absurd hs (splitOnDot_ne_nil cs)
      | cons p ps =>
        rw [splitOnDot_cons c cs p ps h hs]
        rw [hs] at ih
        rw [List.length_cons, List.count_cons]
        simp only [List.length_cons] at ih
        have hbe : (c == '.') = false := by
          simp [h]
        rw [hbe]
        simpa using ih

lemma dot_mem_of_two_le (l : List Char)
    (h : 2 ≤ (splitOnDot l).length) : '.' ∈ l := by
  have hl := length_splitOnDot l
  have hc : 0 < l.count '.' := by omega
  exact List.count_pos_iff.mp hc

lemma dot_not_mem_of_length_one (l : List Char)
    (h : (splitOnDot l).length = 1) : '.' ∉ l := by
  have hl := length_splitOnDot l
  have hc : l.count '.' = 0 := by omega
  exact List.count_eq_zero.mp hc

lemma tailsAfterDots_eq_nil (l : List Char) :
    tailsAfterDots l = [] ↔ '.' ∉ l := by
  induction l with
  | nil => simp [tailsAfterDots]
  | cons c cs ih =>
    by_cases h : c = '.'
    · subst h; simp [tailsAfterDots]
    · simp [tailsAfterDots, h, ih, Ne.symm h]

lemma mem_tailsAfterDots (l : List Char) :
    ∀ t, t ∈ tailsAfterDots l ↔
      ∃ q : Nat, l.getD q ' ' = '.' ∧ t = l.drop (q + 1) := by
  induction l with
  | nil =>
    intro t
    constructor
    · intro h
      exact absurd h (List.not_mem_nil t)
    · rintro ⟨q, hq, -⟩
      have : ([] : List Char).getD q ' ' = ' ' := by
        simp [List.getD]
      rw [this] at hq
      exact absurd hq (by decide)
  | cons c cs ih =>
    intro t
    by_cases h : c = '.'
    · subst h
      rw [show tailsAfterDots ('.' :: cs) = cs :: tailsAfterDots cs from by
        simp [tailsAfterDots]]
      rw [List.mem_cons]
      constructor
      · rintro (rfl | ht)
        · exact ⟨0, by simp, by simp⟩
        · obtain ⟨q, hq, rfl⟩ := (ih t).mp ht
          exact ⟨q + 1, by simpa using hq, by simp⟩
      · rintro ⟨q, hq, rfl⟩
        cases q with
        | zero => left; simp
        | succ q =>
          right
          apply (ih _).mpr
          exact ⟨q, by simpa using hq, by simp⟩
    · rw [show tailsAfterDots (c :: cs) = tailsAfterDots cs from by
        simp [tailsAfterDots, h]]
      constructor
      · intro ht
        obtain ⟨q, hq, rfl⟩ := (ih t).mp ht
        exact ⟨q + 1, by simpa using hq, by simp⟩
      · rintro ⟨q, hq, rfl⟩
        cases q with
        | zero =>
          simp only [List.getD_cons_zero] at hq
          exact absurd hq h
        | succ q =>
          apply (ih _).mpr
          exact ⟨q, by simpa using hq, by simp⟩

lemma scanCandidates_splitOnDot (l : List Char) :
    scanCandidates (splitOnDot l) = (tailsAfterDots l).reverse ++ [l] := by
  induction l with
  | nil => rfl
  | cons c cs ih =>
    by_cases h : c = '.'
    · subst h
      rw [splitOnDot_dot]
      have hj : joinDots ([] :: splitOnDot cs) = '.' :: cs := by
        rw [joinDots_cons _ _ (splitOnDot_ne_nil cs), joinDots_splitOnDot]
        rfl
      rw [show scanCandidates ([] :: splitOnDot cs)
          = scanCandidates (splitOnDot cs) ++ [joinDots ([] :: splitOnDot cs)]
          from rfl]
      rw [hj, ih]
      rw [show tailsAfterDots ('.' :: cs) = cs :: tailsAfterDots cs from by
        simp [tailsAfterDots]]
      simp [List.append_assoc]
    · cases hs : splitOnDot cs with
      | nil => exact absurd hs (splitOnDot_ne_nil cs)
      | cons p ps =>
        rw [splitOnDot_cons c cs p ps h hs]
        rw [hs] at ih
        have hjoin : joinDots (p :: ps) = cs := by
          have hj := joinDots_splitOnDot cs
          rw [hs] at hj
          exact hj
        have hscan : scanCandidates ps = (tailsAfterDots cs).reverse := by
          have h2 : scanCandidates ps ++ [cs]
              = (tailsAfterDots cs).reverse ++ [cs] := by
            rw [show scanCandidates (p :: ps)
                = scanCandidates ps ++ [joinDots (p :: ps)] from rfl] at ih
            rw [hjoin] at ih
            exact ih
          have h3 := congrArg List.dropLast h2
          simpa using h3
        have hjoin2 : joinDots ((c :: p) :: ps) = c :: cs := by
          cases ps with
          | nil =>
            simp only [joinDots] at hjoin ⊢
            rw [hjoin]
          | cons q qs =>
            rw [joinDots_cons _ _ (by simp), List.cons_append,
              ← joinDots_cons _ _ (by simp), hjoin]
        rw [show scanCandidates ((c :: p) :: ps)
            = scanCandidates ps ++ [joinDots ((c :: p) :: ps)] from rfl]
        rw [hjoin2, hscan]
        rw [show tailsAfterDots (c :: cs) = tailsAfterDots cs from by
          simp [tailsAfterDots, h]]

lemma range_map_eq_checkCands (parts : List (List Char)) :
    (List.range (parts.length - 1)).map (fun i => joinDots (parts.drop i))
      = checkCands parts := by
  induction parts with
  | nil => rfl
  | cons p ps ih =>
    cases ps with
    | nil => rfl
    | cons q qs =>
      have hlen : (p :: q :: qs).length - 1 = qs.length + 1 := by simp
      rw [hlen, List.range_succ_eq_map, List.map_cons, List.map_map]
      have h3 : ((fun i => joinDots ((p :: q :: qs).drop i)) ∘ Nat.succ)
          = (fun i => joinDots ((q :: qs).drop i)) := by
        funext i
        simp
      rw [h3]
      have h4 : (q :: qs).length - 1 = qs.length := by simp
      rw [h4] at ih
      rw [ih, List.drop_zero]
      rfl

lemma checkCands_filter (l : List Char) :
    checkCands (splitOnDot l)
      = (dotSuffixes l).filter (fun t => decide ('.' ∈ t)) := by
  induction l with
  | nil => rfl
  | cons c cs ih =>
    by_cases h : c = '.'
    · subst h
      cases hs : splitOnDot cs with
      | nil => exact absurd hs (splitOnDot_ne_nil cs)
      | cons p ps =>
        rw [splitOnDot_dot, hs]
        have hjoin : joinDots ([] :: p :: ps) = '.' :: cs := by
          have hj := joinDots_splitOnDot cs
          rw [hs] at hj
          rw [joinDots_cons _ _ (by simp), hj]
          rfl
        rw [show checkCands ([] :: p :: ps)
            = joinDots ([] :: p :: ps) :: checkCands (p :: ps) from rfl]
        rw [hjoin]
        rw [hs] at ih
        rw [ih]
        simp only [dotSuffixes]
        rw [show tailsAfterDots ('.' :: cs) = cs :: tailsAfterDots cs from by
          simp [tailsAfterDots]]
        by_cases hd : '.' ∈ cs <;> simp [List.filter_cons, hd]
    · cases hs : splitOnDot cs with
      | nil => exact absurd hs (splitOnDot_ne_nil cs)
      | cons p ps =>
        rw [splitOnDot_cons c cs p ps h hs]
        cases ps with
        | nil =>
          have hnd : '.' ∉ cs := by
            apply dot_not_mem_of_length_one
            rw [hs]
            rfl
          have hnd2 : '.' ∉ c :: cs := by
            simp [Ne.symm h, hnd]
          have htails : tailsAfterDots (c :: cs) = [] := by
            rw [tailsAfterDots_eq_nil]
            exact hnd2
          simp only [checkCands, dotSuffixes, htails]
          rw [List.filter_cons]
          simp [hnd2]
        | cons q qs =>
          have hdot : '.' ∈ cs := by
            apply dot_mem_of_two_le
            rw [hs]; simp
          rw [hs] at ih
          have hjoin : joinDots (p :: q :: qs) = cs := by
            have hj := joinDots_splitOnDot cs
            rw [hs] at hj
            exact hj
          have ihsplit : checkCands (q :: qs)
              = (tailsAfterDots cs).filter (fun t => decide ('.' ∈ t)) := by
            rw [show checkCands (p :: q :: qs)
                = joinDots (p :: q :: qs) :: checkCands (q :: qs) from rfl] at ih
            rw [hjoin] at ih
            simp only [dotSuffixes, List.filter_cons] at ih
            rw [if_pos (show decide ('.' ∈ cs) = true by simp [hdot])] at ih
            exact ((List.cons.injEq _ _ _ _).mp ih).2
          have hjoin2 : joinDots ((c :: p) :: q :: qs) = c :: cs := by
            rw [joinDots_cons _ _ (by simp), List.cons_append,
              ← joinDots_cons _ _ (by simp), hjoin]
          rw [show checkCands ((c :: p) :: q :: qs)
              = joinDots ((c :: p) :: q :: qs) :: checkCands (q :: qs) from rfl]
          rw [hjoin2, ihsplit]
          simp only [dotSuffixes]
          rw [show tailsAfterDots (c :: cs) = tailsAfterDots cs from by
            simp [tailsAfterDots, h]]
          rw [List.filter_cons]
          have hmem : '.' ∈ c :: cs := by simp [hdot]
          simp [hmem]

/-! ### Properties of `lastDot` and the PAC scan -/

lemma mk_data (s : String) : String.mk s.data = s := rfl

lemma getD_lt_length (l : List Char) (q : Nat) (hq : l.getD q ' ' = '.') :
    q < l.length := by
  by_contra hcon
  push_neg at hcon
  rw [List.getD_eq_default _ _ hcon] at hq
  exact absurd hq (by decide)

lemma getD_zero_ne_dot_of_not_mem (h : List Char) (hnd : '.' ∉ h) :
    h.getD 0 ' ' ≠ '.' := by
  cases h with
  | nil =>
    have he : ([] : List Char).getD 0 ' ' = ' ' := by simp [List.getD]
    rw [he]
    decide
  | cons c cs =>
    simp only [List.getD_cons_zero]
    intro hq
    subst hq
    exact hnd (List.mem_cons_self _ _)

lemma getD_zero_ne_dot_of_parts (h : List Char)
    (hp : ∀ p ∈ splitOnDot h, p ≠ []) : h.getD 0 ' ' ≠ '.' := by
  cases h with
  | nil =>
    have he : ([] : List Char).getD 0 ' ' = ' ' := by simp [List.getD]
    rw [he]
    decide
  | cons c cs =>
    simp only [List.getD_cons_zero]
    intro hq
    subst hq
    have hmem : ([] : List Char) ∈ splitOnDot ('.' :: cs) := by
      rw [splitOnDot_dot]
      exact List.mem_cons_self _ _
    exact hp [] hmem rfl

lemma lastDot_le (host : List Char) (f : Nat) : lastDot host f ≤ (f : Int) := by
  induction f with
  | zero =>
    simp only [lastDot]
    split
    · omega
    · omega
  | succ f ih =>
    simp only [lastDot]
    split
    · push_cast
      omega
    · push_cast
      omega

lemma lastDot_ge (host : List Char) (f : Nat) : -1 ≤ lastDot host f := by
  induction f with
  | zero =>
    simp only [lastDot]
    split
    · omega
    · omega
  | succ f ih =>
    simp only [lastDot]
    split
    · omega
    · exact ih

lemma lastDot_spec (host : List Char) (f : Nat) :
    lastDot host f = -1 ∨
      (0 ≤ lastDot host f ∧ host.getD (lastDot host f).toNat ' ' = '.') := by
  induction f with
  | zero =>
    by_cases h : host.getD 0 ' ' = '.'
    · right
      simp only [lastDot]
      rw [if_pos h]
      refine ⟨by omega, ?_⟩
      simp only [Int.toNat_zero]
      exact h
    · left
      simp only [lastDot]
      rw [if_neg h]
  | succ f ih =>
    by_cases h : host.getD (f + 1) ' ' = '.'
    · right
      simp only [lastDot, if_pos h]
      refine ⟨by omega, ?_⟩
      have ht : ((f : Int) + 1).toNat = f + 1 := by omega
      rw [ht]
      exact h
    · simp only [lastDot, if_neg h]
      exact ih

lemma lastDot_max (host : List Char) (f : Nat) (q : Nat) (hqf : q ≤ f)
    (hq : host.getD q ' ' = '.') : (q : Int) ≤ lastDot host f := by
  induction f with
  | zero =>
    have hz : q = 0 := Nat.le_zero.mp hqf
    subst hz
    simp only [lastDot]
    rw [if_pos hq]
    omega
  | succ f ih =>
    by_cases h : host.getD (f + 1) ' ' = '.'
    · simp only [lastDot, if_pos h]
      omega
    · simp only [lastDot, if_neg h]
      have hqf2 : q ≤ f := by
        cases Nat.eq_or_lt_of_le hqf with
        | inl he => exact absurd (he ▸ hq) h
        | inr hlt => omega
      exact ih hqf2

/-- Full characterization of the PAC loop from an arbitrary cursor `pos`:
with enough fuel the loop accepts exactly when the suffix at `pos`
matches, or some dot strictly left of `pos` yields a matching suffix, or
(when the scan can run past the leftmost dot, i.e. the head of the
hostname is not a dot) the whole hostname matches. -/
lemma pacScan_char (rules : List String) (h : List Char) :
    ∀ n : Nat, ∀ pos : Int, -1 ≤ pos → (pos + 1).toNat < n →
      (pacScan rules h n pos = true ↔
        (String.mk (h.drop (pos + 1).toNat) ∈ rules
          ∨ (∃ q : Nat, (q : Int) ≤ pos - 1 ∧ h.getD q ' ' = '.'
              ∧ String.mk (h.drop (q + 1)) ∈ rules)
          ∨ (0 < pos ∧ h.getD 0 ' ' ≠ '.' ∧ String.mk h ∈ rules))) := by
  intro n
  induction n with
  | zero =>
    intro pos h1 h2
    omega
  | succ n ih =>
    intro pos h1 h2
    by_cases hmem : String.mk (h.drop (pos + 1).toNat) ∈ rules
    · simp only [pacScan, if_pos hmem]
      simp [hmem]
    · by_cases hpos : pos ≤ 0
      · simp only [pacScan, if_neg hmem, if_pos hpos]
        constructor
        · intro hfalse
          exact absurd hfalse (by simp)
        · rintro (hc | ⟨q, hq1, hq2, hq3⟩ | ⟨hg, -, -⟩)
          · exact absurd hc hmem
          · omega
          · omega
      · simp only [pacScan, if_neg hmem, if_neg hpos]
        push_neg at hpos
        have hge : -1 ≤ lastDot h (pos - 1).toNat := lastDot_ge h _
        have hple : lastDot h (pos - 1).toNat ≤ (((pos - 1).toNat : Nat) : Int) :=
          lastDot_le h _
        have hple2 : lastDot h (pos - 1).toNat ≤ pos - 1 := by omega
        have hlt : (lastDot h (pos - 1).toNat + 1).toNat < n := by omega
        rw [ih (lastDot h (pos - 1).toNat) hge hlt]
        rcases lastDot_spec h (pos - 1).toNat with hnone | ⟨hp0, hpdot⟩
        · rw [hnone]
          have hnodot : ∀ q : Nat, (q : Int) ≤ pos - 1 → h.getD q ' ' ≠ '.' := by
            intro q hqle hqdot
            have hm := lastDot_max h (pos - 1).toNat q (by omega) hqdot
            rw [hnone] at hm
            omega
          have h0 : h.getD 0 ' ' ≠ '.' := hnodot 0 (by omega)
          constructor
          · rintro (hc | ⟨q, hq1, hq2, hq3⟩ | ⟨hc1, hc2, hc3⟩)
            · right; right
              refine ⟨hpos, h0, ?_⟩
              have hz : ((-1 : Int) + 1).toNat = 0 := by omega
              rw [hz, List.drop_zero] at hc
              exact hc
            · omega
            · omega
          · rintro (hc | ⟨q, hq1, hq2, hq3⟩ | ⟨hc1, hc2, hc3⟩)
            · exact absurd hc hmem
            · exact absurd hq2 (hnodot q hq1)
            · left
              have hz : ((-1 : Int) + 1).toNat = 0 := by omega
              rw [hz, List.drop_zero]
              exact hc3
        · have htn2 : (lastDot h (pos - 1).toNat + 1).toNat
              = (lastDot h (pos - 1).toNat).toNat + 1 := by omega
          have hqmax : ∀ q : Nat, (q : Int) ≤ pos - 1 → h.getD q ' ' = '.' →
              (q : Int) ≤ lastDot h (pos - 1).toNat := by
            intro q hle hdot
            exact lastDot_max h (pos - 1).toNat q (by omega) hdot
          constructor
          · rintro (hc | ⟨q, hq1, hq2, hq3⟩ | ⟨hc1, hc2, hc3⟩)
            · right; left
              refine ⟨(lastDot h (pos - 1).toNat).toNat, by omega, hpdot, ?_⟩
              rw [htn2] at hc
              exact hc
            · right; left
              exact ⟨q, by omega, hq2, hq3⟩
            · right; right
              exact ⟨hpos, hc2, hc3⟩
          · rintro (hc | ⟨q, hq1, hq2, hq3⟩ | ⟨hc1, hc2, hc3⟩)
            · exact absurd hc hmem
            · have hqp2 : (q : Int) ≤ lastDot h (pos - 1).toNat := hqmax q hq1 hq2
              by_cases heq : (q : Int) = lastDot h (pos - 1).toNat
              · left
                rw [htn2]
                rw [show (lastDot h (pos - 1).toNat).toNat = q by omega]
                exact hq3
              · right; left
                exact ⟨q, by omega, hq2, hq3⟩
            · right; right
              refine ⟨?_, hc2, hc3⟩
              by_contra hcc
              have hz : lastDot h (pos - 1).toNat = 0 := by omega
              rw [hz] at hpdot
              simp only [Int.toNat_zero] at hpdot
              exact hc2 hpdot

/-- The initial cursor is in range, and fuel `h.length + 1` is enough. -/
lemma initPos_bounds (h : List Char) :
    -1 ≤ initPos h ∧ (initPos h + 1).toNat < h.length + 1 := by
  refine ⟨lastDot_ge h _, ?_⟩
  cases hl : h.length with
  | zero =>
    have hnil : h = [] := List.length_eq_zero.mp hl
    subst hnil
    have hz : initPos ([] : List Char) = -1 := by decide
    rw [hz]
    decide
  | succ m =>
    have hle := lastDot_le h (h.length - 1)
    have hge := lastDot_ge h (h.length - 1)
    simp only [initPos]
    omega

/-- Membership characterization of one full run of the embedded PAC scan,
for hostnames that do not begin with a dot. -/
lemma pacRun_iff (rules : List String) (h : List Char)
    (h0 : h.getD 0 ' ' ≠ '.') :
    pacRun rules h = true ↔ ∃ t ∈ dotSuffixes h, String.mk t ∈ rules := by
  obtain ⟨hge, hlt⟩ := initPos_bounds h
  rw [show pacRun rules h = pacScan rules h (h.length + 1) (initPos h) from rfl]
  rw [pacScan_char rules h (h.length + 1) (initPos h) hge hlt]
  have hmemiff : ∀ t, t ∈ dotSuffixes h ↔
      (t = h ∨ ∃ q : Nat, h.getD q ' ' = '.' ∧ t = h.drop (q + 1)) := by
    intro t
    simp only [dotSuffixes, List.mem_cons, mem_tailsAfterDots]
  rcases lastDot_spec h (h.length - 1) with hnone | ⟨hp0, hpdot⟩
  · have hinit : initPos h = -1 := hnone
    rw [hinit]
    have hnodot : ∀ q : Nat, h.getD q ' ' ≠ '.' := by
      intro q hq
      have hql : q < h.length := getD_lt_length h q hq
      have hm := lastDot_max h (h.length - 1) q (by omega) hq
      rw [hnone] at hm
      omega
    constructor
    · rintro (hc | ⟨q, hq1, hq2, hq3⟩ | ⟨hc1, hc2, hc3⟩)
      · refine ⟨h, by simp [dotSuffixes], ?_⟩
        have hz : ((-1 : Int) + 1).toNat = 0 := by omega
        rw [hz, List.drop_zero] at hc
        exact hc
      · exact absurd hq2 (hnodot q)
      · omega
    · rintro ⟨t, ht, hmemr⟩
      rw [hmemiff t] at ht
      rcases ht with rfl | ⟨q, hq, -⟩
      · left
        have hz : ((-1 : Int) + 1).toNat = 0 := by omega
        rw [hz, List.drop_zero]
        exact hmemr
      · exact absurd hq (hnodot q)
  · have hinit0 : 0 ≤ initPos h := hp0
    have hinitdot : h.getD (initPos h).toNat ' ' = '.' := hpdot
    have hipos : 0 < initPos h := by
      by_contra hcon
      have hz : initPos h = 0 := by omega
      rw [hz] at hinitdot
      simp only [Int.toNat_zero] at hinitdot
      exact h0 hinitdot
    have hmax : ∀ q : Nat, h.getD q ' ' = '.' → (q : Int) ≤ initPos h := by
      intro q hq
      have hql : q < h.length := getD_lt_length h q hq
      exact lastDot_max h (h.length - 1) q (by omega) hq
    have htn2 : (initPos h + 1).toNat = (initPos h).toNat + 1 := by omega
    constructor
    · rintro (hc | ⟨q, hq1, hq2, hq3⟩ | ⟨hc1, hc2, hc3⟩)
      · refine ⟨h.drop ((initPos h).toNat + 1), ?_, ?_⟩
        · rw [hmemiff]
          right
          exact ⟨(initPos h).toNat, hinitdot, rfl⟩
        · rw [htn2] at hc
          exact hc
      · refine ⟨h.drop (q + 1), ?_, hq3⟩
        rw [hmemiff]
        right
        exact ⟨q, hq2, rfl⟩
      · exact ⟨h, by simp [dotSuffixes], hc3⟩
    · rintro ⟨t, ht, hmemr⟩
      rw [hmemiff t] at ht
      rcases ht with rfl | ⟨q, hq, rfl⟩
      · right; right
        exact ⟨hipos, h0, hmemr⟩
      · have hqle : (q : Int) ≤ initPos h := hmax q hq
        by_cases heq : (q : Int) = initPos h
        · left
          rw [htn2]
          rw [show (initPos h).toNat = q by omega]
          exact hmemr
        · right; left
          exact ⟨q, by omega, hq, hmemr⟩

/-- With fuel beyond the cursor, the instrumented loop never runs out. -/
lemma pacScanO_eq_some (rules : List String) (h : List Char) :
    ∀ n : Nat, ∀ pos : Int, -1 ≤ pos → (pos + 1).toNat < n →
      pacScanO rules h n pos = some (pacScan rules h n pos) := by
  intro n
  induction n with
  | zero =>
    intro pos h1 h2
    omega
  | succ n ih =>
    intro pos h1 h2
    by_cases hmem : String.mk (h.drop (pos + 1).toNat) ∈ rules
    · simp [pacScanO, pacScan, hmem]
    · by_cases hpos : pos ≤ 0
      · simp [pacScanO, pacScan, hmem, hpos]
      · simp only [pacScanO, pacScan, if_neg hmem, if_neg hpos]
        apply ih
        · exact lastDot_ge h _
        · have hle := lastDot_le h (pos - 1).toNat
          have hge := lastDot_ge h (pos - 1).toNat
          omega

/-- The spec-side first-match scan yields PROXY exactly on a membership
witness among its candidates. -/
lemma firstMatch_iff (rules : List String) (l : List (List Char)) :
    firstMatch rules l = Verdict.PROXY ↔ ∃ c ∈ l, String.mk c ∈ rules := by
  induction l with
  | nil => simp [firstMatch]
  | cons c cs ih =>
    by_cases h : String.mk c ∈ rules
    · simp [firstMatch, h]
    · simp [firstMatch, h, ih]

/-- The spec-side decision yields PROXY exactly on a matching suffix. -/
lemma specDecide_iff (rules : List String) (host : String) :
    specDecide rules host = Verdict.PROXY ↔
      ∃ t ∈ dotSuffixes host.data, String.mk t ∈ rules := by
  rw [specDecide, firstMatch_iff, scanCandidates_splitOnDot]
  simp only [List.mem_append, List.mem_reverse, List.mem_singleton,
    dotSuffixes, List.mem_cons]
  constructor
  · rintro ⟨t, ht, hm⟩
    exact ⟨t, by tauto, hm⟩
  · rintro ⟨t, ht, hm⟩
    exact ⟨t, by tauto, hm⟩

/-- Membership characterization of `checkDomainInPAC`: it accepts exactly
on a matching dot-containing suffix candidate. -/
lemma checkDomainInPAC_iff (rules : List String) (host : String) :
    checkDomainInPAC rules host = true ↔
      ∃ t ∈ dotSuffixes host.data, '.' ∈ t ∧ String.mk t ∈ rules := by
  have hmap := range_map_eq_checkCands (splitOnDot host.data)
  rw [checkCands_filter] at hmap
  simp only [checkDomainInPAC, List.any_eq_true, List.mem_range,
    decide_eq_true_eq]
  constructor
  · rintro ⟨i, hi, hm⟩
    have ht : joinDots ((splitOnDot host.data).drop i)
        ∈ (List.range ((splitOnDot host.data).length - 1)).map
          (fun i => joinDots ((splitOnDot host.data).drop i)) :=
      List.mem_map_of_mem _ (List.mem_range.mpr hi)
    rw [hmap] at ht
    obtain ⟨hts, htd⟩ := List.mem_filter.mp ht
    exact ⟨joinDots ((splitOnDot host.data).drop i), hts, by simpa using htd, hm⟩
  · rintro ⟨t, ht, hdot, hm⟩
    have ht2 : t ∈ (dotSuffixes host.data).filter
        (fun t => decide ('.' ∈ t)) :=
      List.mem_filter.mpr ⟨ht, by simpa using hdot⟩
    rw [← hmap] at ht2
    obtain ⟨i, hi, rfl⟩ := List.mem_map.mp ht2
    exact ⟨i, List.mem_range.mp hi, hm⟩

/-! ### Claim theorems -/

/-- Claim C1: for every rule set and every non-empty dotted hostname (no
empty label), the embedded PAC decision equals the specified scan that
starts from the rightmost single label, grows one label to the left each
step, and returns PROXY at the first suffix found in the rule set,
DIRECT when the full hostname has been tried; in particular with rule
set `{"d.com"}`, `"c.d.com"` yields PROXY and `"x.y.com"` yields
DIRECT. -/
theorem pac_scan_refines_spec :
    (∀ (rules : List String) (host : String), host ≠ "" → '.' ∈ host.data →
      (∀ p ∈ splitOnDot host.data, p ≠ []) →
      pacDecide rules host = specDecide rules host)
    ∧ pacDecide ["d.com"] "c.d.com" = Verdict.PROXY
    ∧ pacDecide ["d.com"] "x.y.com" = Verdict.DIRECT := by
  refine ⟨?_, by decide, by decide⟩
  intro rules host hne hdot hp
  have h0 : host.data.getD 0 ' ' ≠ '.' := getD_zero_ne_dot_of_parts _ hp
  have hpac := pacRun_iff rules host.data h0
  have hspec := specDecide_iff rules host
  by_cases hr : pacRun rules host.data = true
  · rw [show pacDecide rules host = Verdict.PROXY from by simp [pacDecide, hr]]
    exact (hspec.mpr (hpac.mp hr)).symm
  · rw [show pacDecide rules host = Verdict.DIRECT from by simp [pacDecide, hr]]
    cases hsd : specDecide rules host with
    | PROXY => exact absurd (hpac.mpr (hspec.mp hsd)) hr
    | DIRECT => rfl

/-- Witness for C1 at a concrete wellformed input. -/
theorem pac_scan_refines_spec_witness :
    pacDecide ["d.com"] "c.d.com" = specDecide ["d.com"] "c.d.com" :=
  pac_scan_refines_spec.1 ["d.com"] "c.d.com" (by decide) (by decide)
    (by decide)

/-- Claim C4: for a hostname containing no dot, the embedded PAC decision
tests exactly the hostname itself: PROXY iff the hostname is itself an
entry of the rule set, DIRECT otherwise. -/
theorem dotless_hostname_exact_match (rules : List String) (host : String)
    (hnd : '.' ∉ host.data) :
    (pacDecide rules host = Verdict.PROXY ↔ host ∈ rules)
    ∧ (pacDecide rules host = Verdict.DIRECT ↔ host ∉ rules) := by
  have h0 := getD_zero_ne_dot_of_not_mem host.data hnd
  have hpac := pacRun_iff rules host.data h0
  have htails : tailsAfterDots host.data = [] :=
    (tailsAfterDots_eq_nil _).mpr hnd
  have hiff : pacRun rules host.data = true ↔ host ∈ rules := by
    rw [hpac]
    constructor
    · rintro ⟨t, ht, hm⟩
      simp only [dotSuffixes, htails, List.mem_cons, List.not_mem_nil,
        or_false] at ht
      subst ht
      rwa [mk_data] at hm
    · intro hm
      exact ⟨host.data, by simp [dotSuffixes, htails], by rwa [mk_data]⟩
  by_cases hr : pacRun rules host.data = true
  · have hm : host ∈ rules := hiff.mp hr
    have hd : pacDecide rules host = Verdict.PROXY := by simp [pacDecide, hr]
    rw [hd]
    refine ⟨by simp [hm], ?_, ?_⟩
    · intro hcon
      exact absurd hcon (by simp)
    · intro hnot
      exact absurd hm hnot
  · have hm : host ∉ rules := fun hmm => hr (hiff.mpr hmm)
    have hd : pacDecide rules host = Verdict.DIRECT := by simp [pacDecide, hr]
    rw [hd]
    refine ⟨⟨?_, ?_⟩, by simp [hm]⟩
    · intro hcon
      exact absurd hcon (by simp)
    · intro hmm
      exact absurd hmm hm

/-- Witness for C4 at a concrete dotless input. -/
theorem dotless_hostname_exact_match_witness :
    pacDecide ["localhost"] "localhost" = Verdict.PROXY
      ↔ "localhost" ∈ ["localhost"] :=
  (dotless_hostname_exact_match ["localhost"] "localhost" (by decide)).1

/-- Claim C5: the decision is total and terminating — the instrumented
loop finishes (returns `some` of the run's verdict) within
`host.length + 1` iterations for every hostname and every rule set, the
generated function always returns exactly one of the two directive
strings, and the two decision operations always return a verdict. -/
theorem decision_total_and_terminating :
    (∀ (rules : List String) (host : String),
      pacScanO rules host.data (host.data.length + 1) (initPos host.data)
        = some (pacRun rules host.data))
    ∧ (∀ (proxyServer : String) (rules : List String) (host : String),
        findProxyForURL proxyServer rules host
            = "PROXY " ++ proxyServer ++ ";"
          ∨ findProxyForURL proxyServer rules host = "DIRECT;")
    ∧ (∀ (rules : List String) (host : String),
        pacDecide rules host = Verdict.PROXY
          ∨ pacDecide rules host = Verdict.DIRECT)
    ∧ (∀ (rules : List String) (host : String),
        checkDomainInPAC rules host = true
          ∨ checkDomainInPAC rules host = false) := by
  refine ⟨?_, ?_, ?_, ?_⟩
  · intro rules host
    obtain ⟨hge, hlt⟩ := initPos_bounds host.data
    exact pacScanO_eq_some rules host.data _ _ hge hlt
  · intro p rules host
    by_cases hr : pacRun rules host.data = true
    · left
      simp [findProxyForURL, hr]
    · right
      simp [findProxyForURL, hr]
  · intro rules host
    by_cases hr : pacRun rules host.data = true
    · left
      simp [pacDecide, hr]
    · right
      simp [pacDecide, hr]
  · intro rules host
    cases checkDomainInPAC rules host
    · right
      rfl
    · left
      rfl

/-- Claim C9 counterexample: with rule set `{"localhost"}` and hostname
`"localhost"`, the in-page tester returns false while the embedded PAC
function returns the proxy directive — the two implementations
disagree. -/
theorem checker_pac_disagree :
    checkDomainInPAC ["localhost"] "localhost" = false
    ∧ pacDecide ["localhost"] "localhost" = Verdict.PROXY
    ∧ findProxyForURL "p:1" ["localhost"] "localhost" = "PROXY p:1;" := by
  refine ⟨by decide, by decide, by decide⟩

/-- Claim C9 amended: the tester and the embedded PAC function agree on
every hostname that does not begin with a dot, whenever every rule entry
contains a dot (as is the case for all entries admitted by
`addDomain`). -/
theorem checker_equiv_pac_on_dotted_rules (rules : List String)
    (host : String) (hr : ∀ d ∈ rules, '.' ∈ d.data)
    (h0 : host.data.getD 0 ' ' ≠ '.') :
    checkDomainInPAC rules host = true
      ↔ pacDecide rules host = Verdict.PROXY := by
  rw [checkDomainInPAC_iff]
  have hpac := pacRun_iff rules host.data h0
  have hdec : pacDecide rules host = Verdict.PROXY
      ↔ pacRun rules host.data = true := by
    by_cases hb : pacRun rules host.data = true
    · simp [pacDecide, hb]
    · simp [pacDecide, hb]
  rw [hdec, hpac]
  constructor
  · rintro ⟨t, ht, hdot, hm⟩
    exact ⟨t, ht, hm⟩
  · rintro ⟨t, ht, hm⟩
    refine ⟨t, ht, ?_, hm⟩
    exact hr (String.mk t) hm
/-- Witness for the amended C9 at a concrete input. -/
theorem checker_equiv_pac_on_dotted_rules_witness :
    checkDomainInPAC ["d.com"] "c.d.com" = true
      ↔ pacDecide ["d.com"] "c.d.com" = Verdict.PROXY :=
  checker_equiv_pac_on_dotted_rules ["d.com"] "c.d.com" (by decide)
    (by decide)

/-- Claim C3 counterexample: the empty hostname is not refused with an
error — both decision operations return an ordinary verdict on it. -/
theorem empty_hostname_counterexample :
    pacDecide [] "" = Verdict.DIRECT ∧ checkDomainInPAC [] "" = false := by
  refine ⟨by decide, by decide⟩

/-- Claim C3 amended: on the empty hostname the decision operations
return a verdict rather than failing: the tester returns false for every
rule set, and the embedded PAC function returns DIRECT whenever the
empty string is not itself a rule entry; no error result exists. -/
theorem empty_hostname_yields_verdict (rules : List String) :
    checkDomainInPAC rules "" = false
    ∧ ("" ∉ rules → pacDecide rules "" = Verdict.DIRECT) := by
  constructor
  · rfl
  · intro hne
    have h0 : ([] : List Char).getD 0 ' ' ≠ '.' := by decide
    have hiff := pacRun_iff rules [] h0
    have h1 : pacRun rules [] ≠ true := by
      intro hc
      obtain ⟨t, ht, hm⟩ := hiff.mp hc
      have hnil : t = [] := by
        simpa [dotSuffixes, tailsAfterDots] using ht
      subst hnil
      exact hne hm
    have h1b : pacRun rules ("" : String).data = false := by
      rw [show ("" : String).data = [] from rfl]
      exact Bool.eq_false_iff.mpr h1
    simp [pacDecide, h1b]

/-- Witness for the amended C3 at a concrete rule set. -/
theorem empty_hostname_yields_verdict_witness :
    checkDomainInPAC ["a.com"] "" = false
    ∧ pacDecide ["a.com"] "" = Verdict.DIRECT :=
  ⟨(empty_hostname_yields_verdict ["a.com"]).1,
    (empty_hostname_yields_verdict ["a.com"]).2 (by decide)⟩

/-- Claim C6 counterexample: `"a.b.com"` is a normalized domain
(lowercase, no surrounding whitespace, no leading or trailing dot), yet
immediately after `addDomain` on it the membership is still false — the
entry is rejected by validation, so the claim fails as stated. -/
theorem add_normalized_multilabel_rejected :
    jsTrim ("a.b.com" : String).data = ("a.b.com" : String).data
    ∧ jsToLower ("a.b.com" : String).data = ("a.b.com" : String).data
    ∧ addDomain [] "a.b.com" = ([], false)
    ∧ "a.b.com" ∉ (addDomain [] "a.b.com").1 := by
  refine ⟨by decide, by decide, by decide, by decide⟩

/-- Claim C6 amended: for every normalized domain that `isValidDomain`
accepts, membership holds immediately after add, fails immediately after
remove, and add is idempotent (a no-op, still reporting success) when
the domain is already present. -/
theorem ruleset_add_remove_contains (st : List String) (d : String)
    (ht : jsTrim d.data = d.data) (hl : jsToLower d.data = d.data)
    (hv : isValidDomain d = true) :
    d ∈ (addDomain st d).1 ∧ d ∉ removeDomain st d
    ∧ (d ∈ st → addDomain st d = (st, true)) := by
  have hne : d ≠ "" := by
    intro he
    subst he
    exact absurd hv (by decide)
  have hnorm : String.mk (jsToLower (jsTrim d.data)) = d := by
    rw [ht, hl, mk_data]
  have hadd : addDomain st d = (setAdd st d, true) := by
    simp only [addDomain, hnorm]
    rw [if_pos ⟨hne, hv⟩]
  refine ⟨?_, ?_, ?_⟩
  · rw [hadd]
    simp only [setAdd]
    by_cases hm : d ∈ st
    · rw [if_pos hm]
      exact hm
    · rw [if_neg hm]
      simp
  · simp only [removeDomain, setDelete]
    intro hc
    have h2 := List.mem_filter.mp hc
    simp at h2
  · intro hm
    rw [hadd]
    simp [setAdd, hm]

/-- Witness for the amended C6 at a concrete valid domain. -/
theorem ruleset_add_remove_contains_witness :
    "x.com" ∈ (addDomain ["a.com"] "x.com").1
    ∧ "x.com" ∉ removeDomain ["a.com"] "x.com"
    ∧ ("x.com" ∈ ["a.com"] → addDomain ["a.com"] "x.com" = (["a.com"], true)) :=
  ruleset_add_remove_contains ["a.com"] "x.com" (by decide) (by decide)
    (by decide)

/-- Claim C7: when the normalized input is empty or fails validation,
`addDomain` reports failure and returns the rule set completely
unchanged. -/
theorem invalid_add_leaves_state_unchanged (st : List String) (input : String)
    (hbad : String.mk (jsToLower (jsTrim input.data)) = ""
      ∨ isValidDomain (String.mk (jsToLower (jsTrim input.data))) = false) :
    addDomain st input = (st, false) := by
  simp only [addDomain]
  rw [if_neg]
  rintro ⟨hne, hv⟩
  rcases hbad with he | hv2
  · exact hne he
  · rw [hv] at hv2
    exact absurd hv2 (by decide)

/-- Witness for C7 at a concrete malformed input. -/
theorem invalid_add_leaves_state_unchanged_witness :
    addDomain ["x.com"] "a.b.com" = (["x.com"], false) :=
  invalid_add_leaves_state_unchanged ["x.com"] "a.b.com" (by decide)

lemma filter_ne_length_lt (st : List String) (d : String) (hm : d ∈ st) :
    (st.filter (fun x => decide (x ≠ d))).length < st.length := by
  induction st with
  | nil => cases hm
  | cons a as ih =>
    rw [List.filter_cons]
    by_cases ha : a = d
    · subst ha
      rw [if_neg (by simp)]
      have hle := List.length_filter_le (fun x => decide (x ≠ a)) as
      simp only [List.length_cons]
      omega
    · rw [if_pos (by simp [ha])]
      simp only [List.length_cons]
      have hm2 : d ∈ as := by
        rcases List.mem_cons.mp hm with rfl | h2
        · exact absurd rfl ha
        · exact h2
      have hlt := ih hm2
      omega

/-- Claim C8: the set-level deletion performed by `removeDomain` returns
true exactly when an entry equal to the domain was present; the entry is
absent afterwards, and when it was present the state really shrank. -/
theorem remove_returns_presence (st : List String) (d : String) :
    ((setDelete st d).2 = true ↔ d ∈ st)
    ∧ d ∉ (setDelete st d).1
    ∧ (d ∈ st → ((setDelete st d).1.length < st.length
        ∧ removeDomain st d = (setDelete st d).1)) := by
  refine ⟨?_, ?_, ?_⟩
  · simp [setDelete]
  · simp only [setDelete]
    intro hc
    have h2 := List.mem_filter.mp hc
    simp at h2
  · intro hm
    exact ⟨filter_ne_length_lt st d hm, rfl⟩

/-- Witness for C8 at a concrete state. -/
theorem remove_returns_presence_witness :
    (setDelete ["a.com"] "a.com").1.length < (["a.com"] : List String).length
    ∧ removeDomain ["a.com"] "a.com" = (setDelete ["a.com"] "a.com").1 :=
  (remove_returns_presence ["a.com"] "a.com").2.2 (by decide)

lemma valid_shape (s : List Char)
    (hv : regex1Match s = true ∨ regex2Match s = true) :
    ∃ a b, splitOnDot s = [a, b] ∧ a ≠ [] ∧ 2 ≤ b.length
      ∧ b.all Char.isAlpha = true := by
  cases hs : splitOnDot s with
  | nil => exact absurd hs (splitOnDot_ne_nil s)
  | cons a ps =>
    cases ps with
    | nil =>
      exfalso
      rcases hv with h1 | h1
      · unfold regex1Match at h1
        rw [hs] at h1
        simp at h1
      · unfold regex2Match at h1
        rw [hs] at h1
        simp at h1
    | cons b qs =>
      cases qs with
      | nil =>
        rcases hv with h1 | h1
        · unfold regex1Match at h1
          rw [hs] at h1
          simp only [Bool.and_eq_true, decide_eq_true_eq] at h1
          refine ⟨a, b, rfl, ?_, h1.1.2, h1.2⟩
          intro he
          have h3 := h1.1.1.1.1.1.1
          subst he
          simp at h3
        · unfold regex2Match at h1
          rw [hs] at h1
          simp only [Bool.and_eq_true, decide_eq_true_eq] at h1
          exact ⟨a, b, rfl, h1.1.1.1, h1.1.2, h1.2⟩
      | cons c rs =>
        exfalso
        rcases hv with h1 | h1
        · unfold regex1Match at h1
          rw [hs] at h1
          simp at h1
        · unfold regex2Match at h1
          rw [hs] at h1
          simp at h1

/-- Claim C10: every domain accepted by `isValidDomain` has exactly one
dot — two labels, with a non-empty first label and a purely alphabetic
final label of length at least 2; multi-label names such as `a.b.com`
and single-label names such as `localhost` are rejected and cannot enter
the rule set through `addDomain`. -/
theorem valid_domain_two_labels :
    (∀ d : String, isValidDomain d = true →
      d.data.count '.' = 1
      ∧ ∃ a b, splitOnDot d.data = [a, b] ∧ a ≠ [] ∧ 2 ≤ b.length
          ∧ b.all Char.isAlpha = true)
    ∧ isValidDomain "a.b.com" = false
    ∧ isValidDomain "localhost" = false
    ∧ (∀ st : List String, addDomain st "a.b.com" = (st, false)
        ∧ addDomain st "localhost" = (st, false)) := by
  refine ⟨?_, by decide, by decide, ?_⟩
  · intro d hv
    have hv2 : regex1Match d.data = true ∨ regex2Match d.data = true := by
      simpa [isValidDomain, Bool.or_eq_true] using hv
    have hshape := valid_shape d.data hv2
    obtain ⟨a, b, hs, -, -, -⟩ := hshape
    have hlen := length_splitOnDot d.data
    rw [hs] at hlen
    simp only [List.length_cons, List.length_nil] at hlen
    exact ⟨by omega, valid_shape d.data hv2⟩
  · intro st
    constructor
    · simp only [addDomain]
      rw [if_neg]
      rintro ⟨-, hvv⟩
      rw [show String.mk (jsToLower (jsTrim ("a.b.com" : String).data))
          = "a.b.com" from by decide] at hvv
      exact absurd hvv (by decide)
    · simp only [addDomain]
      rw [if_neg]
      rintro ⟨-, hvv⟩
      rw [show String.mk (jsToLower (jsTrim ("localhost" : String).data))
          = "localhost" from by decide] at hvv
      exact absurd hvv (by decide)

/-- Witness for C10 at a concrete valid domain. -/
theorem valid_domain_two_labels_witness :
    ("x.com" : String).data.count '.' = 1
    ∧ ∃ a b, splitOnDot ("x.com" : String).data = [a, b] ∧ a ≠ []
        ∧ 2 ≤ b.length ∧ b.all Char.isAlpha = true :=
  valid_domain_two_labels.1 "x.com" (by decide)

/-- Claim C2 counterexample: two insertion sequences producing the same
set of domains (the two states are permutations of each other) yield
different generated PAC texts — the generator emits entries in insertion
order, not in lexicographic order. -/
theorem generate_order_counterexample :
    List.Perm (List.foldl setAdd [] ["a.com", "b.com"])
      (List.foldl setAdd [] ["b.com", "a.com"])
    ∧ generatePACCode "p:1" (List.foldl setAdd [] ["a.com", "b.com"])
      ≠ generatePACCode "p:1" (List.foldl setAdd [] ["b.com", "a.com"]) := by
  constructor
  · rw [show List.foldl setAdd [] ["a.com", "b.com"]
        = ["a.com", "b.com"] from by decide]
    rw [show List.foldl setAdd [] ["b.com", "a.com"]
        = ["b.com", "a.com"] from by decide]
    exact List.Perm.swap "b.com" "a.com" []
  · decide

/-- Claim C2 amended: `generatePACCode` emits the domain entries in
first-insertion order — the state built by repeated adds is exactly the
first-occurrence subsequence of the insertion sequence — so two
insertion sequences with the same first-occurrence order (in particular,
any re-generation from an unchanged state) produce identical output,
while mere set equality does not suffice. -/
theorem generate_insertion_order :
    (∀ s : List String, List.foldl setAdd [] s = firstOccurrences s)
    ∧ (∀ (p : String) (s₁ s₂ : List String),
        firstOccurrences s₁ = firstOccurrences s₂ →
        generatePACCode p (List.foldl setAdd [] s₁)
          = generatePACCode p (List.foldl setAdd [] s₂)) := by
  have key : ∀ (s acc seen : List String), (∀ y, y ∈ seen ↔ y ∈ acc) →
      List.foldl setAdd acc s = acc ++ firstOccAux seen s := by
    intro s
    induction s with
    | nil =>
      intro acc seen hiff
      simp [firstOccAux]
    | cons x xs ih =>
      intro acc seen hiff
      by_cases hm : x ∈ acc
      · have hseen : x ∈ seen := (hiff x).mpr hm
        rw [show List.foldl setAdd acc (x :: xs)
            = List.foldl setAdd (setAdd acc x) xs from rfl]
        rw [show setAdd acc x = acc from by simp [setAdd, hm]]
        rw [show firstOccAux seen (x :: xs) = firstOccAux seen xs from by
          simp [firstOccAux, hseen]]
        exact ih acc seen hiff
      · have hseen : x ∉ seen := fun hc => hm ((hiff x).mp hc)
        rw [show List.foldl setAdd acc (x :: xs)
            = List.foldl setAdd (setAdd acc x) xs from rfl]
        rw [show setAdd acc x = acc ++ [x] from by simp [setAdd, hm]]
        rw [show firstOccAux seen (x :: xs)
            = x :: firstOccAux (x :: seen) xs from by
          simp [firstOccAux, hseen]]
        rw [ih (acc ++ [x]) (x :: seen) ?_]
        · simp
        · intro y
          simp only [List.mem_cons, List.mem_append, List.mem_singleton]
          rw [hiff y]
          tauto
  constructor
  · intro s
    have h := key s [] [] (by simp)
    simpa [firstOccurrences] using h
  · intro p s₁ s₂ he
    have h1 : List.foldl setAdd [] s₁ = firstOccurrences s₁ := by
      have h := key s₁ [] [] (by simp)
      simpa [firstOccurrences] using h
    have h2 : List.foldl setAdd [] s₂ = firstOccurrences s₂ := by
      have h := key s₂ [] [] (by simp)
      simpa [firstOccurrences] using h
    rw [h1, h2, he]

/-- Witness for the amended C2 at concrete insertion sequences. -/
theorem generate_insertion_order_witness :
    firstOccurrences ["a.com", "a.com"] = firstOccurrences ["a.com"]
    ∧ generatePACCode "p:1" (List.foldl setAdd [] ["a.com", "a.com"])
      = generatePACCode "p:1" (List.foldl setAdd [] ["a.com"]) :=
  ⟨by decide, generate_insertion_order.2 "p:1" ["a.com", "a.com"] ["a.com"]
    (by decide)⟩

example : pacDecide ["d.com"] "c.d.com" = Verdict.PROXY := by decide

example : pacDecide ["d.com"] "x.y.com" = Verdict.DIRECT := by decide

example : pacDecide ["facebook.com"] "www.facebook.com" = Verdict.PROXY := by
  decide

example : checkDomainInPAC ["d.com"] "c.d.com" = true := by decide

example : checkDomainInPAC ["localhost"] "localhost" = false := by decide

example : pacDecide ["localhost"] "localhost" = Verdict.PROXY := by decide

example : isValidDomain "x.com" = true := by decide

example : isValidDomain "a.b.com" = false := by decide

example : isValidDomain "localhost" = false := by decide

example : addDomain [] "a.b.com" = ([], false) := by decide

example : addDomain [] " X.CoM " = (["x.com"], true) := by decide

example : specDecide ["d.com"] "c.d.com" = Verdict.PROXY := by decide

example : pacDecide [".com"] ".com" = Verdict.DIRECT := by decide

example : specDecide [".com"] ".com" = Verdict.PROXY := by decide

end PacDemo
